import Mathlib

/-!
Verification of the capacity-tracked dynamic array
(`src/indexed/dynamicArray.c`) and the directed graph built on it
(`src/graph/directedGraph.c`).

Modelling conventions:
* a C pointer value is an `Option` (`none` is `NULL`);
* `size_t` quantities are `Nat`, with an explicit `% 2 ^ 64` where the C
  code can wrap (the `array->length - 1` underflow in `dynCopy`);
* heap allocation is an explicit success flag passed to each operation
  that allocates (`true`: the allocations performed by this call
  succeed, `false`: the (re)allocation returns `NULL`);
* uninitialised memory is modelled as `none`: no verified claim observes
  a slot before the code nullifies or writes it;
* functions whose C control flow can dereference a `NULL` pointer return
  an outer `Option` whose `none` marks that undefined behaviour.
-/

set_option maxHeartbeats 1000000

namespace CS101

/-- The `dynArray` record: `length` logical elements, `allocated`
capacity, `buffer` the backing storage (`none` when no storage exists).
Each physical slot holds an opaque reference or `NULL`. -/
structure dynArray (α : Type) where
  length    : Nat
  allocated : Nat
  buffer    : Option (List (Option α))
deriving DecidableEq

variable {α : Type}

/-- NULLify cells `lo..hi` of a buffer. -/
def nullRange (l : List (Option α)) (lo hi : Nat) : List (Option α) :=
  l.mapIdx (fun i x => if lo ≤ i ∧ i ≤ hi then none else x)

/-- `nullElements` (dynamicArray.c:7): NULLify buffer slots `lo..hi`;
no-op unless `lo ≤ hi < length`. -/
def nullElements (a : dynArray α) (lo hi : Nat) : dynArray α :=
  if hi ≥ lo ∧ hi < a.length then
    { a with buffer := Option.map (fun l => nullRange l lo hi) a.buffer }
  else a

/-- `dynCreate` (dynamicArray.c:16): length-`len` array, all slots
nullified, capacity `len`; a zero length allocates no buffer; `none` on
allocation failure (of the record or of the buffer). -/
def dynCreate (alloc : Bool) (len : Nat) : Option (dynArray α) :=
  if alloc then
    if len ≠ 0 then
      some (nullElements ⟨len, len, some (List.replicate len none)⟩ 0 (len - 1))
    else some ⟨0, 0, none⟩
  else none

/-- `realloc`/`malloc` of a pointer buffer to `len` cells: the prefix of
the old contents is preserved, fresh cells are uninitialised. -/
def reallocList (l : List (Option α)) (len : Nat) : List (Option α) :=
  l.take len ++ List.replicate (len - l.length) none

/-- `dynResize` (dynamicArray.c:44). -/
def dynResize (alloc : Bool) (a : dynArray α) (len : Nat) : dynArray α :=
  if len ≠ 0 then
    let oldLength := a.length
    let a1 : dynArray α := { a with length := len }
    let a2 : dynArray α :=
      if len > a1.allocated then
        { a1 with
          buffer :=
            if alloc then
              if oldLength ≠ 0 then some (reallocList (a1.buffer.getD []) len)
              else some (List.replicate len none)
            else none,
          allocated := len }
      else a1
    match a2.buffer with
    | some _ => if len > oldLength then nullElements a2 oldLength (len - 1) else a2
    | none => { a2 with length := 0, allocated := 0 }
  else
    { a with length := 0, allocated := 0, buffer := none }

/-- `dynAppend` (dynamicArray.c:81). -/
def dynAppend (alloc : Bool) (a : dynArray α) (payload : Option α) : dynArray α :=
  if a.allocated > a.length then
    { a with buffer := a.buffer.map (fun l => l.set a.length payload),
             length := a.length + 1 }
  else if a.length ≠ 0 then
    if alloc then
      { length := a.length + 1,
        allocated := a.length * 2,
        buffer := some ((reallocList (a.buffer.getD []) (a.length * 2)).set a.length payload) }
    else ⟨0, 0, none⟩
  else
    if alloc then ⟨1, 1, some [payload]⟩
    else { a with buffer := none }

/-- The value stored in physical slot `i` of a buffer (`NULL` for a cell
outside the materialised list). -/
def slotVal (l : List (Option α)) (i : Nat) : Option α := (l[i]?).getD none

/-- `*dynElement(a, i)` as an r-value: `dynElement` (dynamicArray.c:109)
performs the bounds check against `length`; dereferencing reads the
slot. `none` is the NULL address returned on a bounds error. -/
def readSlot (a : dynArray α) (i : Nat) : Option (Option α) :=
  if i < a.length then some (slotVal (a.buffer.getD []) i) else none

/-- Slot read where the code has already established `i < length` (loop
bodies dereferencing `dynElement`'s result unchecked). -/
def readRaw (a : dynArray α) (i : Nat) : Option α := slotVal (a.buffer.getD []) i

/-- `*dynElement(a, i) = p`: in-bounds slot write. -/
def writeSlot (a : dynArray α) (i : Nat) (p : Option α) : dynArray α :=
  if i < a.length then { a with buffer := a.buffer.map (fun l => l.set i p) } else a

/-- The `while (n--)` loop of `dynProject` (dynamicArray.c:117): slot `n`
receives the address of the `n`-th fixed-width element, abstracted by
`vals`. -/
def projLoop (vals : Nat → α) : Nat → dynArray α → dynArray α
  | 0, c => c
  | n + 1, c => projLoop vals n (writeSlot c n (some (vals n)))

/-- `dynProject` (dynamicArray.c:117). -/
def dynProject (alloc : Bool) (vals : Nat → α) (len : Nat) : Option (dynArray α) :=
  match dynCreate alloc len with
  | none => none
  | some c => some (if len ≠ 0 then projLoop vals len c else c)

/-- `dynSlice` (dynamicArray.c:131): slots `lo..hi` inclusive, `none` on
a bad range or allocation failure. -/
def dynSlice (alloc : Bool) (a : dynArray α) (lo hi : Nat) : Option (dynArray α) :=
  if hi ≥ lo ∧ hi < a.length then
    (dynCreate alloc (hi + 1 - lo) : Option (dynArray α)).map
      (fun c => { c with buffer := some (((a.buffer.getD []).drop lo).take (hi + 1 - lo)) })
  else none

/-- `size_t` wraps modulo `2 ^ 64`. -/
def SIZE64 : Nat := 2 ^ 64

/-- `dynCopy` (dynamicArray.c:147): `dynSlice(array, 0, array->length - 1)`
with the `size_t` subtraction wrapping on `length = 0`. -/
def dynCopy (alloc : Bool) (a : dynArray α) : Option (dynArray α) :=
  dynSlice alloc a 0 ((a.length + (SIZE64 - 1)) % SIZE64)

/-- `dynJoin` (dynamicArray.c:151). -/
def dynJoin (alloc : Bool) (x y : Option (dynArray α)) : Option (dynArray α) :=
  match x, y with
  | some a, some b =>
    (dynCreate alloc (a.length + b.length) : Option (dynArray α)).map
      (fun c =>
        if a.length + b.length = 0 then c
        else { c with
               buffer := some ((a.buffer.getD []).take a.length ++
                               (b.buffer.getD []).take b.length) })
  | _, _ => none

/-- The `while (n--)` loop of `dynForEach` (dynamicArray.c:167), recorded
as the list of `(index, slot value)` callback invocations in call
order; the loop breaks after the first callback returning non-zero. -/
def feLoop (a : dynArray α) (f : Option α → Nat → Bool) : Nat → List (Nat × Option α)
  | 0 => []
  | n + 1 => (n, readRaw a n) :: (if f (readRaw a n) n then [] else feLoop a f n)

/-- `dynForEach` (dynamicArray.c:167): the trace of callback calls. -/
def dynForEach (arr : Option (dynArray α)) (f : Option α → Nat → Bool) :
    List (Nat × Option α) :=
  match arr with
  | some a => if a.length ≠ 0 then feLoop a f a.length else []
  | none => []

/-- The `while (n--)` write-back loop of `dynMap` (dynamicArray.c:186). -/
def mapLoop (a : dynArray α) (f : Option α → Nat → Option α) :
    Nat → dynArray α → dynArray α
  | 0, t => t
  | n + 1, t => mapLoop a f n (writeSlot t n (f (readRaw a n) n))

/-- `dynMap` (dynamicArray.c:178). Outer `none` models the
`transform->length` NULL dereference when `dynCreate(0)` failed while the
input is non-NULL and nonempty; `some r` is a normal return of `r`. -/
def dynMap (b1 b2 : Bool) (arr : Option (dynArray α)) (f : Option α → Nat → Option α) :
    Option (Option (dynArray α)) :=
  match dynCreate b1 0 with
  | none =>
    match arr with
    | some a => if a.length ≠ 0 then none else some none
    | none => some none
  | some t0 =>
    match arr with
    | some a =>
      if a.length ≠ 0 then
        let t1 := dynResize b2 t0 a.length
        some (some (if t1.length ≠ 0 then mapLoop a f a.length t1 else t1))
      else some (some t0)
    | none => some (some t0)

/-- The `for` loop of `dynFilter` (dynamicArray.c:202): `r` remaining
iterations starting at index `i`; the loop breaks when an append has
destructively reset the accumulator. -/
def filterLoop (a : dynArray α) (p : Option α → Nat → Bool) (oracle : Nat → Bool) :
    Nat → Nat → dynArray α → dynArray α
  | 0, _, t => t
  | r + 1, i, t =>
    if p (readRaw a i) i then
      let t1 := dynAppend (oracle i) t (readRaw a i)
      if t1.length = 0 then t1 else filterLoop a p oracle r (i + 1) t1
    else filterLoop a p oracle r (i + 1) t

/-- `dynFilter` (dynamicArray.c:195). `oracle i` is the success of the
(re)allocation performed by the append at loop index `i`, if any. Outer
`none` models the `dynAppend(NULL, e)` dereference when `dynCreate(0)`
failed and some element passes the predicate. -/
def dynFilter (b1 : Bool) (oracle : Nat → Bool) (arr : Option (dynArray α))
    (p : Option α → Nat → Bool) : Option (Option (dynArray α)) :=
  match dynCreate b1 0 with
  | none =>
    match arr with
    | some a =>
      if a.length ≠ 0 then
        if (List.range a.length).any (fun i => p (readRaw a i) i) then none
        else some none
      else some none
    | none => some none
  | some t0 =>
    match arr with
    | some a => some (some (if a.length ≠ 0 then filterLoop a p oracle a.length 0 t0 else t0))
    | none => some (some t0)

/-- The `while (n--)` write-back loop of `dynZipWith` (dynamicArray.c:234). -/
def zipLoop (a b : dynArray α) (f : Option α → Option α → Nat → Option α) :
    Nat → dynArray α → dynArray α
  | 0, t => t
  | n + 1, t => zipLoop a b f n (writeSlot t n (f (readRaw a n) (readRaw b n) n))

/-- `dynZipWith` (dynamicArray.c:226). Outer `none` models the
`zipped->length` NULL dereference when `dynCreate(0)` failed while both
inputs are non-NULL. -/
def dynZipWith (b1 b2 : Bool) (x y : Option (dynArray α))
    (f : Option α → Option α → Nat → Option α) : Option (Option (dynArray α)) :=
  match dynCreate b1 0 with
  | none =>
    match x, y with
    | some _, some _ => none
    | _, _ => some none
  | some z0 =>
    match x, y with
    | some a, some b =>
      let n := if a.length > b.length then b.length else a.length
      let z1 := dynResize b2 z0 n
      some (some (if z1.length ≠ 0 then zipLoop a b f n z1 else z1))
    | _, _ => some (some z0)

/-- The container invariant: capacity bounds length, capacity is zero
exactly when no backing storage exists, and the physical buffer holds
exactly `allocated` cells. -/
def Inv (a : dynArray α) : Prop :=
  a.length ≤ a.allocated ∧ (a.allocated = 0 ↔ a.buffer = none) ∧
    ∀ l, a.buffer = some l → l.length = a.allocated

/-- A `dgNode` record (directedGraph.h:33): a payload reference and the
edge container, a dynamic array of node pointers. -/
structure dgNodeRec (α : Type) where
  payload : α
  links   : dynArray Nat

/-- The arena of allocated graph nodes: a non-NULL node pointer is an
index into this list. -/
abbrev Heap (α : Type) := List (dgNodeRec α)

/-- The `cyclicity` enumeration (directedGraph.h:46). -/
inductive cyclicity
  | acyclic
  | cyclic
deriving DecidableEq

/-- The logical slots of a container: its first `length` buffer cells. -/
def containerSlots (a : dynArray α) : List (Option α) := (a.buffer.getD []).take a.length

/-- `dgLink` (directedGraph.c:24). Outer `none` models undefined
behaviour (`*next` when `dynElement` returned the NULL address, or a
node pointer outside the arena); `some none` is a NULL return;
`some (some (u, j))` is the address of slot `j` of node `u`'s edge
container. -/
def dgLinkM (h : Heap α) : Nat → Nat → Nat → Option (Option (Nat × Nat))
  | _, _, 0 => some none
  | v, index, depth + 1 =>
    match h[v]? with
    | none => none
    | some nd =>
      let nextAddr : Option (Nat × Nat) :=
        if index < nd.links.length then some (v, index) else none
      if depth = 0 then some nextAddr
      else
        match nextAddr with
        | none => none
        | some _ =>
          match slotVal (nd.links.buffer.getD []) index with
          | none => some none
          | some w => dgLinkM h w index depth

/-- `dgTraverse` (directedGraph.c:42): depth 0 is the identity; any other
depth dereferences `dgLink`'s result unconditionally (outer `none` =
NULL dereference). -/
def dgTraverseM (h : Heap α) (v index depth : Nat) : Option (Option Nat) :=
  if depth = 0 then some (some v)
  else
    match dgLinkM h v index depth with
    | none => none
    | some none => none
    | some (some (u, j)) =>
      match h[u]? with
      | none => none
      | some nd => some (slotVal (nd.links.buffer.getD []) j)

/-- `dgStep` (directedGraph.c:50), with the remaining step count
`route.length - cursor` made explicit as the structural recursion
measure. Outer `none` models the `*dynElement(node->links, *nextTurn)`
NULL dereference on an out-of-bounds link index (or a node pointer
outside the arena, or a cursor/length mismatch that cannot arise from
`dgRoute`). -/
def dgStepM (h : Heap α) (route : dynArray Nat) :
    Nat → Option Nat → Nat → Option (Option Nat)
  | _, none, _ => some none
  | 0, some v, _ => some (some v)
  | remaining + 1, some v, cursor =>
    match readSlot route cursor with
    | none => none
    | some none => some none
    | some (some turn) =>
      match h[v]? with
      | none => none
      | some nd =>
        if turn < nd.links.length then
          dgStepM h route remaining (slotVal (nd.links.buffer.getD []) turn) (cursor + 1)
        else none

/-- `dgRoute` (directedGraph.c:68): a NULL route returns the node
unchanged, otherwise `dgStep` from cursor 0. -/
def dgRouteM (h : Heap α) (node : Option Nat) (route : Option (dynArray Nat)) :
    Option (Option Nat) :=
  match route with
  | none => some node
  | some r => dgStepM h r r.length node 0

/-- One directed edge of the arena graph: node `v`'s edge container
holds a link to node `w`. -/
def EdgeH (h : Heap α) (v w : Nat) : Prop :=
  ∃ nd, h[v]? = some nd ∧ some w ∈ containerSlots nd.links

/-- A path of edges recorded as its node list: `WalkH h v u L` is a walk
from `v` to `u` visiting exactly the nodes `L` in order (so `L` begins
with `v`, ends with `u`, and is nonempty). -/
inductive WalkH (h : Heap α) : Nat → Nat → List Nat → Prop
  | nil (v : Nat) : WalkH h v v [v]
  | cons {v w u : Nat} {L : List Nat} :
      EdgeH h v w → WalkH h w u L → WalkH h v u (v :: L)

/-- "Some path of edges starting at `v` revisits a node already on that
same path". -/
def HasLasso (h : Heap α) (v : Nat) : Prop := ∃ u L, WalkH h v u L ∧ ¬ L.Nodup

/-- Modelled from the spec: the body of `dgIsCyclic`
(src/graph/directedGraph.c:76) is an unimplemented `/* TODO */` stub.
The spec prescribes a depth-first traversal maintaining the set of nodes
on the active recursion path, reporting cyclic on revisiting an on-stack
node and clearing nodes on backtrack. `dfsEdgesWith f` explores the
outgoing-edge slots of one node with the continuation `f`. -/
def dfsEdgesWith (f : Nat → Bool) : List (Option Nat) → Bool
  | [] => false
  | none :: rest => dfsEdgesWith f rest
  | some w :: rest => f w || dfsEdgesWith f rest

/-- Modelled from the spec: the on-stack depth-first search of
`dgIsCyclic`. `fuel` bounds the recursion depth; since the on-stack list
never repeats a node, `heap size + 1` suffices. -/
def dfsC (h : Heap α) : Nat → List Nat → Nat → Bool
  | 0, _, _ => false
  | fuel + 1, stack, v =>
    if v ∈ stack then true
    else
      match h[v]? with
      | none => false
      | some nd => dfsEdgesWith (dfsC h fuel (v :: stack)) (containerSlots nd.links)

/-- Modelled from the spec: `dgIsCyclic` (src/graph/directedGraph.c:76,
an unimplemented stub). -/
def dgIsCyclicM (h : Heap α) (v : Nat) : cyclicity :=
  if dfsC h (h.length + 1) [] v then .cyclic else .acyclic

/-- Copy the slots of one edge container with the node-copy continuation
`f`, threading the growing arena; empty slots stay empty. -/
def copyEdgesWith (f : Heap α → Nat → Option (Heap α × Nat)) :
    Heap α → List (Option Nat) → Option (Heap α × List (Option Nat))
  | h, [] => some (h, [])
  | h, none :: rest =>
    match copyEdgesWith f h rest with
    | none => none
    | some (h1, rest1) => some (h1, none :: rest1)
  | h, some w :: rest =>
    match f h w with
    | none => none
    | some (h1, w1) =>
      match copyEdgesWith f h1 rest with
      | none => none
      | some (h2, rest2) => some (h2, some w1 :: rest2)

/-- Modelled from the spec: the body of `dgCopy`
(src/graph/directedGraph.c:80) is an unimplemented `/* TODO */` stub.
The spec and header describe a recursive structural copy that allocates
a new record per visited node, preserves the payload reference, and
reproduces the edge container's shape, with each occupied slot linking
to the copy of its target; it recurses without bound, so it is defined
only on acyclic inputs — the fuel bound is rendered sufficient by that
precondition. Copies are appended to the arena, so every copied record
sits at a fresh index. -/
def copyNodeM : Nat → Heap α → Nat → Option (Heap α × Nat)
  | 0, _, _ => none
  | fuel + 1, h, v =>
    match h[v]? with
    | none => none
    | some nd =>
      match copyEdgesWith (copyNodeM fuel) h (containerSlots nd.links) with
      | none => none
      | some (h1, slots1) =>
        some (h1 ++ [⟨nd.payload, ⟨slots1.length, slots1.length, some slots1⟩⟩], h1.length)

/-- Modelled from the spec: `dgCopy` (src/graph/directedGraph.c:80, an
unimplemented stub), run with enough fuel for any acyclic input. -/
def dgCopyM (h : Heap α) (v : Nat) : Option (Heap α × Nat) :=
  copyNodeM (h.length + 1) h v

/-- Every stored edge target references a node of the arena (a C pointer
always points at an allocated record). -/
def ClosedHeap (h : Heap α) : Prop :=
  (h.all fun nd => (containerSlots nd.links).all fun s =>
    s.all fun w => decide (w < h.length)) = true

/-- An edge container holding the given slots. -/
def mkLinks (slots : List (Option Nat)) : dynArray Nat :=
  ⟨slots.length, slots.length, some slots⟩

/-- The diamond of the spec's test scenario: `D` = node 0, `C` = node 1
(edge 0 to D), `B` = node 2 (edge 0 to D), `A` = node 3 (edge 0 to B,
edge 1 to C). -/
def diamondHeap : Heap Nat :=
  [⟨10, mkLinks []⟩, ⟨11, mkLinks [some 0]⟩, ⟨12, mkLinks [some 0]⟩,
   ⟨13, mkLinks [some 2, some 1]⟩]

/-- The two-node cycle of the spec's test scenario: `A` = node 0 and
`B` = node 1 linked to each other by their edge 0. -/
def cycleHeap : Heap Nat :=
  [⟨20, mkLinks [some 1]⟩, ⟨21, mkLinks [some 0]⟩]

/-- A single node whose only edge slot is empty. -/
def brokenLinkHeap : Heap Nat := [⟨30, mkLinks [none]⟩]

/-- A single node with an empty edge container. -/
def noEdgeHeap : Heap Nat := [⟨40, mkLinks []⟩]

/-- A one-entry route addressing link index 0. -/
def oobRoute : dynArray Nat := ⟨1, 1, some [some 0]⟩

/-- The claim's route-following semantics, written from its words (the
spec side of the refinement): an empty route returns the current node;
step k follows entry k from the node reached after step k−1; an absent
route entry or an absent link makes the result the BrokenLink failure
(`none`, the NULL return), and the failure propagates without consulting
further entries. An out-of-range link index — excluded by the amended
claim's precondition — is also mapped to the failure value here. -/
def routeFollowSpec (h : Heap α) : Option Nat → List (Option Nat) → Option Nat
  | none, _ => none
  | some v, [] => some v
  | some _, none :: _ => none
  | some v, some t :: rest =>
    match h[v]? with
    | none => none
    | some nd =>
      if t < nd.links.length then
        routeFollowSpec h (slotVal (nd.links.buffer.getD []) t) rest
      else none

/-- Every link index consulted while following the route is within the
current node's edge-container bounds, and every node reached is an arena
record: the route-validity precondition the header documents
(directedGraph.h: the route "ought to contain valid link indices"). -/
def routeSafe (h : Heap α) : Option Nat → List (Option Nat) → Bool
  | none, _ => true
  | some _, [] => true
  | some _, none :: _ => true
  | some v, some t :: rest =>
    match h[v]? with
    | none => false
    | some nd =>
      if t < nd.links.length then
        routeSafe h (slotVal (nd.links.buffer.getD []) t) rest
      else false

/-- A two-entry route following link index 0 twice. -/
def diamondRouteBB : dynArray Nat := ⟨2, 2, some [some 0, some 0]⟩

/-- Pointwise correspondence of two edge-slot lists under a relation
`R` on node indices: equal length, empty slots facing empty slots, and
occupied slots facing occupied slots with `R`-related targets. -/
def mirrorsSlots (R : Nat → Nat → Prop) : List (Option Nat) → List (Option Nat) → Prop
  | [], [] => True
  | none :: r, none :: r2 => mirrorsSlots R r r2
  | some w :: r, some w2 :: r2 => R w w2 ∧ mirrorsSlots R r r2
  | _, _ => False

/-- `MirrorsF h0 H fuel v v2`: within recursion depth `fuel`, node `v2`
of the arena `H` is a fresh structural copy of node `v` of the original
arena `h0`: a record at an index past `h0` (a new node record), holding
the identical payload reference, with an edge container of the same
shape whose slot `j` is occupied exactly when the original's slot `j`
is and then links to a copy of the original's target. -/
def MirrorsF (h0 H : Heap α) : Nat → Nat → Nat → Prop
  | 0, _, _ => False
  | fuel + 1, v, v2 =>
    ∃ nd nd2, h0[v]? = some nd ∧ H[v2]? = some nd2 ∧ h0.length ≤ v2 ∧
      nd2.payload = nd.payload ∧
      mirrorsSlots (MirrorsF h0 H fuel) (containerSlots nd.links) (containerSlots nd2.links)

/-- Structural-copy correspondence at some finite depth (enough for the
acyclic graphs on which `dgCopy` is defined). -/
def Mirrors (h0 H : Heap α) (v v2 : Nat) : Prop := ∃ fuel, MirrorsF h0 H fuel v v2

/-! ### General lemmas about the container model -/

lemma reallocList_length (l : List (Option α)) (n : Nat) : (reallocList l n).length = n := by
  simp only [reallocList, List.length_append, List.length_take, List.length_replicate]
  omega

lemma nullRange_length (l : List (Option α)) (lo hi : Nat) :
    (nullRange l lo hi).length = l.length := by
  simp [nullRange]

lemma nullRange_replicate (n lo hi : Nat) :
    nullRange (List.replicate n (none : Option α)) lo hi = List.replicate n none := by
  apply List.ext_getElem?
  intro i
  rw [nullRange, List.getElem?_mapIdx]
  by_cases h2 : i < n
  · simp [List.getElem?_replicate, h2]
  · simp [List.getElem?_replicate, h2]

lemma dynCreate_true (len : Nat) :
    dynCreate true len
      = some (⟨len, len,
          if len = 0 then none else some (List.replicate len none)⟩ : dynArray α) := by
  rcases Nat.eq_zero_or_pos len with h | h
  · subst h; rfl
  · have hne : len ≠ 0 := by omega
    simp only [dynCreate, if_true, hne, if_neg, ite_false, ite_true, nullElements]
    have hcond : len - 1 ≥ 0 ∧ len - 1 < len := by omega
    rw [if_pos hcond]
    simp [nullRange_replicate, hne]

lemma dynCreate_false (len : Nat) : dynCreate false len = (none : Option (dynArray α)) := rfl

/-- C5: whenever `dynResize` must grow beyond the current capacity, or
`dynAppend` finds no spare capacity, and the (re)allocation fails, the
container is destructively reset to length 0, capacity 0, with no
backing storage — prior contents discarded, never a partially grown
state. -/
theorem c5_destructive_reset {α : Type} :
    (∀ (a : dynArray α) (len : Nat), a.allocated < len →
      dynResize false a len = ⟨0, 0, none⟩) ∧
    (∀ (a : dynArray α) (p : Option α), a.allocated ≤ a.length →
      dynAppend false a p = ⟨0, 0, none⟩) := by
  constructor
  · intro a len hlt
    have hne : len ≠ 0 := by omega
    simp [dynResize, hne, hlt]
  · intro a p hle
    have h1 : ¬ a.allocated > a.length := by omega
    by_cases h0 : a.length = 0
    · have h2 : a.allocated = 0 := by omega
      obtain ⟨al, aa, ab⟩ := a
      simp_all [dynAppend]
    · simp [dynAppend, h1, h0]

/-- C5 witness: concrete failed growth on a two-element container. -/
theorem c5_destructive_reset_witness :
    (⟨2, 2, some [some 1, none]⟩ : dynArray Nat).allocated < 5 ∧
    (⟨2, 2, some [some 1, none]⟩ : dynArray Nat).allocated
      ≤ (⟨2, 2, some [some 1, none]⟩ : dynArray Nat).length ∧
    dynResize false (⟨2, 2, some [some 1, none]⟩ : dynArray Nat) 5 = ⟨0, 0, none⟩ ∧
    dynAppend false (⟨2, 2, some [some 1, none]⟩ : dynArray Nat) (some 7) = ⟨0, 0, none⟩ :=
  ⟨by decide, by decide,
   c5_destructive_reset.1 _ 5 (by decide),
   c5_destructive_reset.2 _ (some 7) (by decide)⟩

/-- C4 (code bug): `dgTraverse` is the identity at depth 0, but it
dereferences `dgLink`'s result unconditionally, so whenever the link
resolution fails — an empty intermediate link before the requested
depth, or an out-of-bounds link index — it dereferences the NULL it was
handed (modelled by the outer `none`) instead of returning the
documented BrokenLink failure. -/
theorem c4_traverse_null_deref :
    dgTraverseM brokenLinkHeap 0 0 0 = some (some 0) ∧
    dgTraverseM brokenLinkHeap 0 0 2 = none ∧
    dgTraverseM noEdgeHeap 0 5 1 = none := by decide

/-- C3 counterexample: copying a length-0 container returns the NULL
failure pointer (the `size_t` underflow `length - 1` makes `dynSlice`
reject the range), not an empty container. -/
theorem c3_empty_copy_counterexample :
    dynCopy true (⟨0, 0, none⟩ : dynArray Nat) = none := by decide

/-- C3 (amended): for a container of nonzero length (below the `size_t`
bound), `copy` coincides with `slice(c, 0, length−1)` and, on allocation
success, yields a new container of equal length whose slot `i` holds the
identical reference for every `i < length`; for a length-0 container it
returns the NULL failure indicator instead of an empty container. -/
theorem c3_copy_amended {α : Type} (a : dynArray α) (b : Bool) :
    (a.length = 0 → dynCopy b a = none) ∧
    (a.length ≠ 0 → a.length < SIZE64 →
      (dynCopy b a = dynSlice b a 0 (a.length - 1) ∧
       ∃ c, dynCopy true a = some c ∧ c.length = a.length ∧ c.allocated = a.length ∧
         ∀ i, i < a.length → readSlot c i = readSlot a i)) := by
  have hS : 1 ≤ SIZE64 := by norm_num [SIZE64]
  constructor
  · intro h0
    have hmod : (a.length + (SIZE64 - 1)) % SIZE64 = SIZE64 - 1 := by
      rw [h0]
      exact Nat.mod_eq_of_lt (by omega)
    rw [dynCopy, hmod, dynSlice]
    rw [if_neg]
    intro hcon
    omega
  · intro h1 h2
    have hmod : (a.length + (SIZE64 - 1)) % SIZE64 = a.length - 1 := by
      have heq : a.length + (SIZE64 - 1) = (a.length - 1) + 1 * SIZE64 := by omega
      rw [heq, Nat.add_mul_mod_self_right]
      exact Nat.mod_eq_of_lt (by omega)
    have hcopy : ∀ b' : Bool, dynCopy b' a = dynSlice b' a 0 (a.length - 1) := by
      intro b'
      rw [dynCopy, hmod]
    refine ⟨hcopy b, ?_⟩
    have hcond : a.length - 1 ≥ 0 ∧ a.length - 1 < a.length := by omega
    have hlen : a.length - 1 + 1 - 0 = a.length := by omega
    rw [hcopy true, dynSlice, if_pos hcond, hlen, dynCreate_true, Option.map_some']
    refine ⟨_, rfl, rfl, rfl, ?_⟩
    intro i hi
    simp only [readSlot, hi, if_pos, Option.getD_some]
    rw [slotVal, slotVal, List.drop_zero, List.getElem?_take_of_lt hi]

/-- C3 (amended) witness: a concrete two-element container. -/
theorem c3_copy_amended_witness :
    ((⟨2, 3, some [some 5, none, some 9]⟩ : dynArray Nat).length ≠ 0 ∧
      (⟨2, 3, some [some 5, none, some 9]⟩ : dynArray Nat).length < SIZE64) ∧
    (dynCopy true (⟨2, 3, some [some 5, none, some 9]⟩ : dynArray Nat)
        = dynSlice true (⟨2, 3, some [some 5, none, some 9]⟩ : dynArray Nat) 0 1 ∧
     ∃ c, dynCopy true (⟨2, 3, some [some 5, none, some 9]⟩ : dynArray Nat) = some c ∧
       c.length = 2 ∧ c.allocated = 2 ∧
       ∀ i, i < 2 → readSlot c i
         = readSlot (⟨2, 3, some [some 5, none, some 9]⟩ : dynArray Nat) i) :=
  ⟨⟨by decide, by norm_num [SIZE64]⟩,
   (c3_copy_amended (⟨2, 3, some [some 5, none, some 9]⟩ : dynArray Nat) true).2
     (by decide) (by norm_num [SIZE64])⟩

/-- C10: with a NULL input array (either input, for `zipWith`), `map`,
`filter` and `zipWith` return a fresh empty container — length 0,
capacity 0, no storage — rather than a failure indicator or a fault,
provided the allocation of the empty result record (`dynCreate(0)`)
succeeds. -/
theorem c10_combinators_null_input {α : Type} (b2 : Bool)
    (f : Option α → Nat → Option α) (g : Option α → Option α → Nat → Option α)
    (p : Option α → Nat → Bool) (oracle : Nat → Bool) (x : Option (dynArray α)) :
    dynMap true b2 none f = some (some ⟨0, 0, none⟩) ∧
    dynFilter true oracle none p = some (some ⟨0, 0, none⟩) ∧
    dynZipWith true b2 none x g = some (some ⟨0, 0, none⟩) ∧
    dynZipWith true b2 x none g = some (some ⟨0, 0, none⟩) := by
  refine ⟨rfl, rfl, ?_, ?_⟩ <;> cases x <;> rfl

/-- C9: a successful `dynAppend` grows the length by exactly 1 and
writes the reference into the new last slot, so `dynElement` at the new
last index reads it back; with spare capacity the write is in place and
the capacity is unchanged, otherwise the capacity becomes exactly twice
the old length, or exactly 1 when the container was empty. -/
theorem c9_append_spec {α : Type} (a : dynArray α) (p : Option α) (b : Bool)
    (hinv : Inv a) (hok : a.allocated > a.length ∨ b = true) :
    (dynAppend b a p).length = a.length + 1 ∧
    readSlot (dynAppend b a p) a.length = some p ∧
    (a.allocated > a.length → (dynAppend b a p).allocated = a.allocated) ∧
    (a.allocated ≤ a.length → a.length = 0 → (dynAppend b a p).allocated = 1) ∧
    (a.allocated ≤ a.length → a.length ≠ 0 → (dynAppend b a p).allocated = 2 * a.length) := by
  obtain ⟨hle, hiff, hbuf⟩ := hinv
  by_cases hsp : a.allocated > a.length
  · obtain ⟨l, hl⟩ : ∃ l, a.buffer = some l := by
      cases hb : a.buffer with
      | none => exact absurd (hiff.mpr hb) (by omega)
      | some l => exact ⟨l, rfl⟩
    have hll : l.length = a.allocated := hbuf l hl
    have happ : dynAppend b a p
        = { a with buffer := a.buffer.map (fun l => l.set a.length p),
                   length := a.length + 1 } := by
      rw [dynAppend, if_pos hsp]
    rw [happ]
    refine ⟨rfl, ?_, fun _ => rfl, fun hc _ => absurd hsp (by omega),
      fun hc _ => absurd hsp (by omega)⟩
    simp only [readSlot, hl, Option.map_some', Option.getD_some, slotVal]
    rw [if_pos (by omega : a.length < a.length + 1)]
    rw [List.getElem?_set_self (by omega), Option.getD_some]
  · have hb : b = true := by tauto
    subst hb
    by_cases h0 : a.length = 0
    · have happ : dynAppend true a p = ⟨1, 1, some [p]⟩ := by
        rw [dynAppend, if_neg hsp, if_neg (by simpa using h0)]
        rfl
      rw [happ]
      refine ⟨by simp [h0], ?_, fun hc => absurd hc hsp, fun _ _ => rfl,
        fun _ hc => absurd h0 hc⟩
      rw [h0]
      rfl
    · have happ : dynAppend true a p
          = ⟨a.length + 1, a.length * 2,
             some ((reallocList (a.buffer.getD []) (a.length * 2)).set a.length p)⟩ := by
        rw [dynAppend, if_neg hsp, if_pos (by simpa using h0)]
        rfl
      rw [happ]
      refine ⟨rfl, ?_, fun hc => absurd hc hsp, fun _ hc => absurd hc h0,
        fun _ _ => by simp [Nat.mul_comm]⟩
      simp only [readSlot, slotVal, Option.getD_some]
      rw [if_pos (by omega : a.length < a.length + 1)]
      rw [List.getElem?_set_self (by rw [reallocList_length]; omega), Option.getD_some]

/-- C9 witness: append onto an empty container, then onto a full
one-element container. -/
theorem c9_append_spec_witness :
    (Inv (⟨0, 0, none⟩ : dynArray Nat) ∧
      readSlot (dynAppend true (⟨0, 0, none⟩ : dynArray Nat) (some 7)) 0 = some (some 7) ∧
      (dynAppend true (⟨0, 0, none⟩ : dynArray Nat) (some 7)).allocated = 1) ∧
    (Inv (⟨1, 1, some [some 7]⟩ : dynArray Nat) ∧
      readSlot (dynAppend true (⟨1, 1, some [some 7]⟩ : dynArray Nat) (some 8)) 1
        = some (some 8) ∧
      (dynAppend true (⟨1, 1, some [some 7]⟩ : dynArray Nat) (some 8)).allocated = 2) := by
  have hinv0 : Inv (⟨0, 0, none⟩ : dynArray Nat) :=
    ⟨by decide, by simp, fun l hl => by cases hl⟩
  have hinv1 : Inv (⟨1, 1, some [some 7]⟩ : dynArray Nat) :=
    ⟨by decide, by simp, fun l hl => by cases hl; rfl⟩
  have h0 := c9_append_spec (⟨0, 0, none⟩ : dynArray Nat) (some 7) true hinv0 (Or.inr rfl)
  have h1 := c9_append_spec (⟨1, 1, some [some 7]⟩ : dynArray Nat) (some 8) true hinv1
    (Or.inr rfl)
  exact ⟨⟨hinv0, h0.2.1, h0.2.2.2.1 (by decide) rfl⟩,
         ⟨hinv1, h1.2.1, h1.2.2.2.2 (by decide) (by decide)⟩⟩

/-! ### The forEach traversal order -/

lemma feLoop_spec (a : dynArray α) (f : Option α → Nat → Bool) :
    ∀ n,
      (feLoop a f n).map Prod.fst = ((List.range n).reverse).take (feLoop a f n).length ∧
      (∀ q ∈ feLoop a f n, q.2 = readRaw a q.1) ∧
      (∀ q ∈ (feLoop a f n).dropLast, f q.2 q.1 = false) ∧
      ((feLoop a f n).length < n →
        ∃ q, (feLoop a f n).getLast? = some q ∧ f q.2 q.1 = true) := by
  intro n
  induction n with
  | zero => simp [feLoop]
  | succ m ih =>
    obtain ⟨ih1, ih2, ih3, ih4⟩ := ih
    have hrange : (List.range (m + 1)).reverse = m :: (List.range m).reverse := by
      rw [List.range_succ, List.reverse_append]
      rfl
    by_cases hstop : f (readRaw a m) m = true
    · have ht : feLoop a f (m + 1) = [(m, readRaw a m)] := by
        simp [feLoop, hstop]
      rw [ht, hrange]
      refine ⟨rfl, ?_, ?_, ?_⟩
      · intro q hq
        rcases List.mem_singleton.mp hq with rfl
        rfl
      · intro q hq
        simp at hq
      · intro _
        exact ⟨(m, readRaw a m), rfl, hstop⟩
    · have hf : f (readRaw a m) m = false := by
        cases hfm : f (readRaw a m) m with
        | true => exact absurd hfm hstop
        | false => rfl
      have ht : feLoop a f (m + 1) = (m, readRaw a m) :: feLoop a f m := by
        simp [feLoop, hf]
      rw [ht, hrange]
      refine ⟨?_, ?_, ?_, ?_⟩
      · simpa using ih1
      · intro q hq
        rcases List.mem_cons.mp hq with rfl | hq
        · rfl
        · exact ih2 q hq
      · cases hrest : feLoop a f m with
        | nil =>
          intro q hq
          simp at hq
        | cons r rs =>
          intro q hq
          have hq' : q ∈ (m, readRaw a m) :: (r :: rs).dropLast := hq
          rcases List.mem_cons.mp hq' with rfl | hq2
          · exact hf
          · exact ih3 q (by rw [hrest]; exact hq2)
      · intro hlen
        have hlm : (feLoop a f m).length < m := by
          simp at hlen
          omega
        obtain ⟨q, hq1, hq2⟩ := ih4 hlm
        refine ⟨q, ?_, hq2⟩
        cases hrest : feLoop a f m with
        | nil =>
          rw [hrest] at hq1
          simp at hq1
        | cons r rs =>
          rw [hrest] at hq1
          exact hq1

/-- C7: `dynForEach` calls the callback on the slots in strictly
decreasing index order starting at `length − 1` (the visited index list
is a prefix of `length−1, …, 0`, passing each slot's value), every call
before the last returned the continue signal, and if the traversal
stopped before reaching index 0 then the last call returned the stop
signal — all lower-indexed slots are left unvisited. -/
theorem c7_forEach_order {α : Type} (a : dynArray α) (f : Option α → Nat → Bool) :
    (dynForEach (some a) f).map Prod.fst
      = ((List.range a.length).reverse).take (dynForEach (some a) f).length ∧
    (∀ q ∈ dynForEach (some a) f, q.2 = readRaw a q.1) ∧
    (∀ q ∈ (dynForEach (some a) f).dropLast, f q.2 q.1 = false) ∧
    ((dynForEach (some a) f).length < a.length →
      ∃ q, (dynForEach (some a) f).getLast? = some q ∧ f q.2 q.1 = true) := by
  by_cases h0 : a.length = 0
  · simp [dynForEach, h0]
  · have he : dynForEach (some a) f = feLoop a f a.length := by
      simp [dynForEach, h0]
    rw [he]
    exact feLoop_spec a f a.length

/-! ### Invariant preservation -/

lemma inv_empty : Inv (⟨0, 0, none⟩ : dynArray α) :=
  ⟨le_rfl, by simp, fun l hl => by cases hl⟩

lemma nullElements_inv (a : dynArray α) (lo hi : Nat) (h : Inv a) :
    Inv (nullElements a lo hi) := by
  obtain ⟨h1, h2, h3⟩ := h
  rw [nullElements]
  split
  · refine ⟨h1, ?_, ?_⟩
    · cases hb : a.buffer with
      | none => simpa [hb] using h2.2 hb
      | some l => simp [hb, (by simp [h2, hb] : ¬ a.allocated = 0)]
    · intro l hl
      cases hb : a.buffer with
      | none => rw [hb] at hl; cases hl
      | some l0 =>
        rw [hb] at hl
        cases hl
        rw [nullRange_length]
        exact h3 l0 hb
  · exact ⟨h1, h2, h3⟩

lemma writeSlot_inv (a : dynArray α) (i : Nat) (p : Option α) (h : Inv a) :
    Inv (writeSlot a i p) := by
  obtain ⟨h1, h2, h3⟩ := h
  rw [writeSlot]
  split
  · refine ⟨h1, ?_, ?_⟩
    · cases hb : a.buffer with
      | none => simpa [hb] using h2.2 hb
      | some l => simp [hb, (by simp [h2, hb] : ¬ a.allocated = 0)]
    · intro l hl
      cases hb : a.buffer with
      | none => rw [hb] at hl; cases hl
      | some l0 =>
        rw [hb] at hl
        cases hl
        rw [List.length_set]
        exact h3 l0 hb
  · exact ⟨h1, h2, h3⟩

lemma dynCreate_inv (b : Bool) (len : Nat) (c : dynArray α)
    (h : dynCreate b len = some c) : Inv c := by
  cases b with
  | false => cases h
  | true =>
    rw [dynCreate_true] at h
    cases h
    by_cases hl : len = 0
    · subst hl
      exact inv_empty
    · exact ⟨le_rfl, by simp [hl], fun l hl2 => by
        rw [if_neg hl] at hl2; cases hl2; simp⟩

lemma dynResize_inv (b : Bool) (a : dynArray α) (len : Nat) (h : Inv a) :
    Inv (dynResize b a len) := by
  obtain ⟨h1, h2, h3⟩ := h
  by_cases hl : len = 0
  · rw [dynResize, if_neg (by simpa using hl)]
    exact ⟨le_rfl, by simp, fun l hl2 => by cases hl2⟩
  · by_cases hgrow : len > a.allocated
    · have hgl : len > a.length := by omega
      cases b with
      | false =>
        have he : dynResize false a len = ⟨0, 0, none⟩ := by
          simp [dynResize, hl, hgrow]
        rw [he]
        exact inv_empty
      | true =>
        by_cases h0 : a.length = 0
        · have he : dynResize true a len
              = nullElements ⟨len, len, some (List.replicate len none)⟩ a.length (len - 1) := by
            simp only [dynResize, if_pos hl, if_pos hgrow, h0, ite_true, ite_false,
              ne_eq, not_true_eq_false, if_false, if_pos hgl]
            rw [if_pos (by omega : len > 0)]
          rw [he]
          refine nullElements_inv _ _ _ ⟨le_rfl, by simp [hl], ?_⟩
          intro l hl2
          cases hl2
          simp
        · have he : dynResize true a len
              = nullElements ⟨len, len, some (reallocList (a.buffer.getD []) len)⟩
                  a.length (len - 1) := by
            simp only [dynResize, if_pos hl, if_pos hgrow, h0, ite_false, ite_true,
              ne_eq, not_false_eq_true, if_pos hgl]
          rw [he]
          refine nullElements_inv _ _ _ ⟨le_rfl, by simp [hl], ?_⟩
          intro l hl2
          cases hl2
          rw [reallocList_length]
    · obtain ⟨l0, hb⟩ : ∃ l0, a.buffer = some l0 := by
        cases hb : a.buffer with
        | none =>
          have := h2.mpr hb
          omega
        | some l0 => exact ⟨l0, rfl⟩
      have hinv2 : Inv (⟨len, a.allocated, some l0⟩ : dynArray α) := by
        refine ⟨show len ≤ a.allocated by omega, ?_, ?_⟩
        · simp
          intro hz
          rw [h2] at hz
          rw [hz] at hb
          cases hb
        · intro l hl2
          cases hl2
          rw [h3 l0 hb]
      have he : dynResize b a len
          = if len > a.length then nullElements ⟨len, a.allocated, some l0⟩ a.length (len - 1)
            else ⟨len, a.allocated, some l0⟩ := by
        simp only [dynResize, if_pos hl, if_neg hgrow, hb]
      rw [he]
      split
      · exact nullElements_inv _ _ _ hinv2
      · exact hinv2

lemma dynAppend_inv (b : Bool) (a : dynArray α) (p : Option α) (h : Inv a) :
    Inv (dynAppend b a p) := by
  obtain ⟨h1, h2, h3⟩ := h
  rw [dynAppend]
  by_cases hsp : a.allocated > a.length
  · rw [if_pos hsp]
    refine ⟨show a.length + 1 ≤ a.allocated by omega, ?_, ?_⟩
    · cases hb : a.buffer with
      | none => simpa [hb] using h2.2 hb
      | some l => simp [hb, (by simp [h2, hb] : ¬ a.allocated = 0)]
    · intro l hl
      cases hb : a.buffer with
      | none => rw [hb] at hl; cases hl
      | some l0 =>
        rw [hb] at hl
        cases hl
        rw [List.length_set]
        exact h3 l0 hb
  · rw [if_neg hsp]
    by_cases h0 : a.length = 0
    · simp only [h0, ne_eq, not_true_eq_false, if_false]
      cases b with
      | false =>
        simp only [Bool.false_eq_true, if_false]
        have ha0 : a.allocated = 0 := by omega
        exact ⟨Nat.zero_le _, by simp [ha0], fun l hl2 => by cases hl2⟩
      | true =>
        exact ⟨le_rfl, by simp, fun l hl2 => by cases hl2; rfl⟩
    · rw [if_pos h0]
      cases b with
      | false =>
        simp only [Bool.false_eq_true, if_false]
        exact ⟨le_rfl, by simp, fun l hl2 => by cases hl2⟩
      | true =>
        simp only [if_true]
        refine ⟨show a.length + 1 ≤ a.length * 2 by omega, ?_, ?_⟩
        · show a.length * 2 = 0 ↔ _
          simp
          omega
        · intro l hl2
          cases hl2
          rw [List.length_set, reallocList_length]

lemma dynSlice_inv (b : Bool) (a : dynArray α) (lo hi : Nat) (c : dynArray α)
    (ha : Inv a) (h : dynSlice b a lo hi = some c) : Inv c := by
  obtain ⟨h1, h2, h3⟩ := ha
  rw [dynSlice] at h
  by_cases hcond : hi ≥ lo ∧ hi < a.length
  · rw [if_pos hcond] at h
    cases b with
    | false => cases h
    | true =>
      rw [dynCreate_true, Option.map_some'] at h
      cases h
      have hn : hi + 1 - lo ≠ 0 := by omega
      obtain ⟨l0, hb⟩ : ∃ l0, a.buffer = some l0 := by
        cases hb : a.buffer with
        | none =>
          have : a.allocated = 0 := h2.mpr hb
          omega
        | some l0 => exact ⟨l0, rfl⟩
      have hl0 : l0.length = a.allocated := h3 l0 hb
      refine ⟨le_rfl, by simp [hn], ?_⟩
      intro l hl
      cases hl
      rw [hb]
      simp only [Option.getD_some, List.length_take, List.length_drop]
      omega
  · rw [if_neg hcond] at h
    cases h

lemma dynCopy_inv (b : Bool) (a : dynArray α) (c : dynArray α)
    (ha : Inv a) (h : dynCopy b a = some c) : Inv c :=
  dynSlice_inv b a 0 _ c ha h

lemma dynJoin_inv (b : Bool) (x y : dynArray α) (c : dynArray α)
    (hx : Inv x) (hy : Inv y) (h : dynJoin b (some x) (some y) = some c) : Inv c := by
  obtain ⟨hx1, hx2, hx3⟩ := hx
  obtain ⟨hy1, hy2, hy3⟩ := hy
  rw [dynJoin] at h
  cases b with
  | false => cases h
  | true =>
    rw [dynCreate_true, Option.map_some'] at h
    cases h
    by_cases hn : x.length + y.length = 0
    · rw [if_pos hn]
      refine ⟨le_rfl, by simp [hn], ?_⟩
      intro l hl
      simp [hn] at hl
    · rw [if_neg hn]
      refine ⟨le_rfl, by simp [hn], ?_⟩
      intro l hl
      cases hl
      simp only [List.length_append, List.length_take]
      have hxl : ∀ l0, x.buffer = some l0 → x.length ≤ l0.length := by
        intro l0 hb
        rw [hx3 l0 hb]
        exact hx1
      have hyl : ∀ l0, y.buffer = some l0 → y.length ≤ l0.length := by
        intro l0 hb
        rw [hy3 l0 hb]
        exact hy1
      cases hbx : x.buffer with
      | none =>
        have hx0 : x.allocated = 0 := hx2.mpr hbx
        cases hby : y.buffer with
        | none =>
          have hy0 : y.allocated = 0 := hy2.mpr hby
          simp [hbx, hby]
          omega
        | some ly =>
          have := hyl ly hby
          simp [hbx, hby]
          omega
      | some lx =>
        have := hxl lx hbx
        cases hby : y.buffer with
        | none =>
          have hy0 : y.allocated = 0 := hy2.mpr hby
          simp [hbx, hby]
          omega
        | some ly =>
          have := hyl ly hby
          simp [hbx, hby]
          omega

lemma projLoop_inv (vals : Nat → α) (n : Nat) (c : dynArray α) (h : Inv c) :
    Inv (projLoop vals n c) := by
  induction n generalizing c with
  | zero => exact h
  | succ m ih => exact ih _ (writeSlot_inv _ _ _ h)

lemma dynProject_inv (b : Bool) (vals : Nat → α) (len : Nat) (c : dynArray α)
    (h : dynProject b vals len = some c) : Inv c := by
  rw [dynProject] at h
  cases hc : (dynCreate b len : Option (dynArray α)) with
  | none => rw [hc] at h; cases h
  | some c0 =>
    rw [hc] at h
    cases h
    have hc0 : Inv c0 := dynCreate_inv b len c0 hc
    split
    · exact projLoop_inv _ _ _ hc0
    · exact hc0

lemma mapLoop_inv (a : dynArray α) (f : Option α → Nat → Option α) (n : Nat)
    (t : dynArray α) (h : Inv t) : Inv (mapLoop a f n t) := by
  induction n generalizing t with
  | zero => exact h
  | succ m ih => exact ih _ (writeSlot_inv _ _ _ h)

lemma zipLoop_inv (a b : dynArray α) (f : Option α → Option α → Nat → Option α) (n : Nat)
    (t : dynArray α) (h : Inv t) : Inv (zipLoop a b f n t) := by
  induction n generalizing t with
  | zero => exact h
  | succ m ih => exact ih _ (writeSlot_inv _ _ _ h)

lemma filterLoop_inv (a : dynArray α) (p : Option α → Nat → Bool) (oracle : Nat → Bool)
    (r i : Nat) (t : dynArray α) (h : Inv t) : Inv (filterLoop a p oracle r i t) := by
  induction r generalizing i t with
  | zero => exact h
  | succ m ih =>
    rw [filterLoop]
    split
    · show Inv (if (dynAppend (oracle i) t (readRaw a i)).length = 0
          then dynAppend (oracle i) t (readRaw a i)
          else filterLoop a p oracle m (i + 1) (dynAppend (oracle i) t (readRaw a i)))
      split
      · exact dynAppend_inv _ _ _ h
      · exact ih _ _ (dynAppend_inv _ _ _ h)
    · exact ih _ _ h

lemma dynMap_inv (b1 b2 : Bool) (arr : Option (dynArray α)) (f : Option α → Nat → Option α)
    (c : dynArray α) (h : dynMap b1 b2 arr f = some (some c)) : Inv c := by
  rw [dynMap.eq_def] at h
  cases hc : (dynCreate b1 0 : Option (dynArray α)) with
  | none =>
    rw [hc] at h
    cases arr with
    | none => cases h
    | some a =>
      simp only [] at h
      split at h
      · cases h
      · cases h
  | some t0 =>
    rw [hc] at h
    have ht0 : Inv t0 := dynCreate_inv b1 0 t0 hc
    cases arr with
    | none => cases h; exact ht0
    | some a =>
      simp only [] at h
      split at h
      · cases h
        split
        · exact mapLoop_inv _ _ _ _ (dynResize_inv _ _ _ ht0)
        · exact dynResize_inv _ _ _ ht0
      · cases h
        exact ht0

lemma dynFilter_inv (b1 : Bool) (oracle : Nat → Bool) (arr : Option (dynArray α))
    (p : Option α → Nat → Bool) (c : dynArray α)
    (h : dynFilter b1 oracle arr p = some (some c)) : Inv c := by
  rw [dynFilter.eq_def] at h
  cases hc : (dynCreate b1 0 : Option (dynArray α)) with
  | none =>
    rw [hc] at h
    cases arr with
    | none => cases h
    | some a =>
      simp only [] at h
      split at h
      · split at h
        · cases h
        · cases h
      · cases h
  | some t0 =>
    rw [hc] at h
    have ht0 : Inv t0 := dynCreate_inv b1 0 t0 hc
    cases arr with
    | none => cases h; exact ht0
    | some a =>
      cases h
      split
      · exact filterLoop_inv _ _ _ _ _ _ ht0
      · exact ht0

lemma dynZipWith_inv (b1 b2 : Bool) (x y : Option (dynArray α))
    (f : Option α → Option α → Nat → Option α) (c : dynArray α)
    (h : dynZipWith b1 b2 x y f = some (some c)) : Inv c := by
  rw [dynZipWith.eq_def] at h
  cases hc : (dynCreate b1 0 : Option (dynArray α)) with
  | none =>
    rw [hc] at h
    cases x with
    | none => simp at h
    | some a => cases y with
      | none => simp at h
      | some b => simp at h
  | some z0 =>
    rw [hc] at h
    have hz0 : Inv z0 := dynCreate_inv b1 0 z0 hc
    cases x with
    | none =>
      simp only [] at h
      cases h
      exact hz0
    | some a => cases y with
      | none =>
        simp only [] at h
        cases h
        exact hz0
      | some b =>
        simp only [] at h
        cases h
        split
        all_goals
          first
          | exact zipLoop_inv _ _ _ _ _ (dynResize_inv _ _ _ hz0)
          | exact dynResize_inv _ _ _ hz0
          | (split
             all_goals
               first
               | exact zipLoop_inv _ _ _ _ _ (dynResize_inv _ _ _ hz0)
               | exact dynResize_inv _ _ _ hz0)

/-- C6: every container-constructing or mutating operation — create,
resize, append, slice, copy, join, project, and the result construction
of the map/filter/zipWith combinators — preserves the container
invariant: capacity ≥ length, capacity = 0 exactly when no backing
storage exists (and the backing storage holds exactly `capacity`
physical slots). -/
theorem c6_invariant_preserved {α : Type} :
    (∀ (b : Bool) (len : Nat) (c : dynArray α), dynCreate b len = some c → Inv c) ∧
    (∀ (b : Bool) (a : dynArray α) (len : Nat), Inv a → Inv (dynResize b a len)) ∧
    (∀ (b : Bool) (a : dynArray α) (p : Option α), Inv a → Inv (dynAppend b a p)) ∧
    (∀ (b : Bool) (a : dynArray α) (lo hi : Nat) (c : dynArray α),
      Inv a → dynSlice b a lo hi = some c → Inv c) ∧
    (∀ (b : Bool) (a c : dynArray α), Inv a → dynCopy b a = some c → Inv c) ∧
    (∀ (b : Bool) (x y c : dynArray α),
      Inv x → Inv y → dynJoin b (some x) (some y) = some c → Inv c) ∧
    (∀ (b : Bool) (vals : Nat → α) (len : Nat) (c : dynArray α),
      dynProject b vals len = some c → Inv c) ∧
    (∀ (b1 b2 : Bool) (arr : Option (dynArray α)) (f : Option α → Nat → Option α)
      (c : dynArray α), dynMap b1 b2 arr f = some (some c) → Inv c) ∧
    (∀ (b1 : Bool) (oracle : Nat → Bool) (arr : Option (dynArray α))
      (p : Option α → Nat → Bool) (c : dynArray α),
      dynFilter b1 oracle arr p = some (some c) → Inv c) ∧
    (∀ (b1 b2 : Bool) (x y : Option (dynArray α))
      (f : Option α → Option α → Nat → Option α) (c : dynArray α),
      dynZipWith b1 b2 x y f = some (some c) → Inv c) :=
  ⟨dynCreate_inv, dynResize_inv, dynAppend_inv, dynSlice_inv, dynCopy_inv, dynJoin_inv,
   dynProject_inv, dynMap_inv, dynFilter_inv, dynZipWith_inv⟩

/-- C6 witness: the invariant holds for a freshly created container and
for a concrete resize of it. -/
theorem c6_invariant_preserved_witness :
    dynCreate true 3 = some (⟨3, 3, some [none, none, none]⟩ : dynArray Nat) ∧
    Inv (⟨3, 3, some [none, none, none]⟩ : dynArray Nat) ∧
    Inv (dynResize true (⟨3, 3, some [none, none, none]⟩ : dynArray Nat) 5) := by
  have hcr : dynCreate true 3 = some (⟨3, 3, some [none, none, none]⟩ : dynArray Nat) := by
    decide
  have hinv := c6_invariant_preserved.1 true 3 _ hcr
  exact ⟨hcr, hinv, c6_invariant_preserved.2.1 true _ 5 hinv⟩

/-! ### Route following -/

lemma dgStepM_spec (h : Heap α) (route : dynArray Nat) (hinv : Inv route) :
    ∀ (rest : List (Option Nat)) (cursor : Nat) (node : Option Nat),
      cursor + rest.length = route.length →
      rest = (containerSlots route).drop cursor →
      routeSafe h node rest = true →
      dgStepM h route rest.length node cursor = some (routeFollowSpec h node rest) := by
  intro rest
  induction rest with
  | nil =>
    intro cursor node _ _ _
    cases node with
    | none => rfl
    | some v => rfl
  | cons e rest ih =>
    intro cursor node hlen hdrop hsafe
    cases node with
    | none => rfl
    | some v =>
      have hcur : cursor < route.length := by
        simp only [List.length_cons] at hlen
        omega
      obtain ⟨l, hb⟩ : ∃ l, route.buffer = some l := by
        cases hbb : route.buffer with
        | none =>
          have h0 : route.allocated = 0 := hinv.2.1.mpr hbb
          have := hinv.1
          omega
        | some l => exact ⟨l, rfl⟩
      have hll : route.length ≤ l.length := by
        rw [hinv.2.2 l hb]
        exact hinv.1
      have hslotv : slotVal l cursor = e := by
        have h1 : ((containerSlots route).drop cursor)[0]? = some e := by
          rw [← hdrop]
          simp
        rw [List.getElem?_drop] at h1
        rw [containerSlots, hb] at h1
        simp only [Option.getD_some, Nat.add_zero] at h1
        rw [List.getElem?_take_of_lt hcur] at h1
        rw [slotVal, h1]
        rfl
      have hslot : readSlot route cursor = some e := by
        rw [readSlot, if_pos hcur, hb]
        simp only [Option.getD_some, hslotv]
      have hdrop2 : rest = (containerSlots route).drop (cursor + 1) := by
        have : (containerSlots route).drop (cursor + 1)
            = ((containerSlots route).drop cursor).drop 1 := by
          rw [List.drop_drop]
        rw [this, ← hdrop]
        rfl
      simp only [List.length_cons]
      rw [dgStepM, hslot]
      cases e with
      | none => rfl
      | some t =>
        cases hv : h[v]? with
        | none =>
          rw [routeSafe, hv] at hsafe
          simp at hsafe
        | some nd =>
          rw [routeSafe, hv] at hsafe
          simp only [] at hsafe ⊢
          by_cases hti : t < nd.links.length
          · rw [if_pos hti] at hsafe ⊢
            rw [ih (cursor + 1) _ (by simp only [List.length_cons] at hlen; omega) hdrop2 hsafe]
            rw [routeFollowSpec, hv]
            simp [hti]
          · rw [if_neg hti] at hsafe
            cases hsafe

/-- C8 counterexample: routing from a node whose edge container is empty
with the route entry 0 makes `dgStep` dereference the NULL that
`dynElement(node->links, 0)` returns (undefined behaviour, the outer
`none`), instead of returning a BrokenLink failure value. -/
theorem c8_route_oob_counterexample :
    dgRouteM noEdgeHeap (some 0) (some oobRoute) = none := by decide

/-- C8 (amended): a NULL route and an empty route both return the node
unchanged, and — provided every link index the route consults is within
the current node's edge-container bounds, as the header documents routes
must be — `dgRoute` follows the entries one step at a time and returns
the claimed step semantics: the node reached, or the BrokenLink failure
value as soon as a step dereferences an absent link or an absent route
entry, and never a fault. -/
theorem c8_route_amended {α : Type} (h : Heap α) (node : Option Nat) (v : Nat)
    (route : dynArray Nat) (hinv : Inv route)
    (hsafe : routeSafe h (some v) (containerSlots route) = true) :
    dgRouteM h node none = some node ∧
    (route.length = 0 → dgRouteM h node (some route) = some node) ∧
    dgRouteM h (some v) (some route) = some (routeFollowSpec h (some v) (containerSlots route)) := by
  refine ⟨rfl, ?_, ?_⟩
  · intro h0
    rw [dgRouteM, h0]
    cases node with
    | none => rfl
    | some w => rfl
  · have hcs : (containerSlots route).length = route.length := by
      obtain ⟨l, hb⟩ : ∃ l, route.buffer = some l ∨ route.length = 0 := by
        cases hbb : route.buffer with
        | none =>
          refine ⟨[], Or.inr ?_⟩
          have h0 : route.allocated = 0 := hinv.2.1.mpr hbb
          have := hinv.1
          omega
        | some l => exact ⟨l, Or.inl rfl⟩
      rcases hb with hb | hb
      · rw [containerSlots, hb]
        simp only [Option.getD_some, List.length_take]
        have := hinv.2.2 l hb
        have := hinv.1
        omega
      · simp [containerSlots, hb]
    rw [dgRouteM, ← hcs]
    exact dgStepM_spec h route hinv (containerSlots route) 0 (some v) (by omega)
      (by rw [List.drop_zero]) hsafe

/-- C8 (amended) witness: the diamond heap, following edge 0 twice from
node `A` reaches node `D`. -/
theorem c8_route_amended_witness :
    (Inv diamondRouteBB ∧
      routeSafe diamondHeap (some 3) (containerSlots diamondRouteBB) = true) ∧
    dgRouteM diamondHeap (some 3) (some diamondRouteBB)
      = some (routeFollowSpec diamondHeap (some 3) (containerSlots diamondRouteBB)) ∧
    dgRouteM diamondHeap (some 3) (some diamondRouteBB) = some (some 0) := by
  have hinv : Inv diamondRouteBB :=
    ⟨by decide, by simp [diamondRouteBB], fun l hl => by cases hl; rfl⟩
  have hsafe : routeSafe diamondHeap (some 3) (containerSlots diamondRouteBB) = true := by
    decide
  refine ⟨⟨hinv, hsafe⟩, ?_, by decide⟩
  exact (c8_route_amended diamondHeap (some 3) 3 diamondRouteBB hinv hsafe).2.2

/-! ### Walks and the on-stack depth-first search -/

lemma walkH_ne_nil {h : Heap α} {v u : Nat} {L : List Nat} (w : WalkH h v u L) : L ≠ [] := by
  cases w with
  | nil => simp
  | cons he hw => simp

lemma walkH_getLast {h : Heap α} {v u : Nat} {L : List Nat} (w : WalkH h v u L) :
    L.getLast? = some u := by
  induction w with
  | nil v => rfl
  | @cons v w u L he hw ih =>
    cases hL : L with
    | nil => exact absurd hL (walkH_ne_nil hw)
    | cons y ys =>
      rw [hL] at ih
      exact ih

lemma dropLast_cons_of_ne_nil {x : Nat} {L : List Nat} (h : L ≠ []) :
    (x :: L).dropLast = x :: L.dropLast := by
  cases L with
  | nil => exact absurd rfl h
  | cons y ys => rfl

lemma walkH_dropLast_lt (h : Heap α) {v u : Nat} {L : List Nat} (w : WalkH h v u L) :
    ∀ y ∈ L.dropLast, y < h.length := by
  induction w with
  | nil v => simp
  | @cons v w u L he hw ih =>
    intro y hy
    rw [dropLast_cons_of_ne_nil (walkH_ne_nil hw)] at hy
    rcases List.mem_cons.mp hy with rfl | hy
    · obtain ⟨nd, hnd, _⟩ := he
      rcases List.getElem?_eq_some.mp hnd with ⟨hlt, _⟩
      exact hlt
    · exact ih y hy

lemma walkH_nodes_lt (h : Heap α) {v u : Nat} {L : List Nat} (w : WalkH h v u L)
    (hu : u ∈ L.dropLast) : ∀ y ∈ L, y < h.length := by
  intro y hy
  have hne := walkH_ne_nil w
  have hlast : L.getLast hne = u := by
    have := walkH_getLast w
    rw [List.getLast?_eq_getLast L hne] at this
    exact Option.some_injective _ this
  have hL : L.dropLast ++ [u] = L := by
    rw [← hlast]
    exact List.dropLast_concat_getLast hne
  rw [← hL] at hy
  rcases List.mem_append.mp hy with hy | hy
  · exact walkH_dropLast_lt h w y hy
  · rcases List.mem_singleton.mp hy with rfl
    exact walkH_dropLast_lt h w y hu

lemma not_nodup_of_mem_dropLast {L : List Nat} {u : Nat}
    (h1 : L.getLast? = some u) (h2 : u ∈ L.dropLast) : ¬ L.Nodup := by
  intro hnd
  have hne : L ≠ [] := by
    intro hL
    rw [hL] at h1
    cases h1
  have hlast : L.getLast hne = u := by
    rw [List.getLast?_eq_getLast L hne] at h1
    exact Option.some_injective _ h1
  have hL : L.dropLast ++ [u] = L := by
    rw [← hlast]
    exact List.dropLast_concat_getLast hne
  rw [← hL] at hnd
  rcases List.nodup_append.mp hnd with ⟨_, _, hdisj⟩
  exact hdisj h2 (List.mem_singleton.mpr rfl)

lemma exists_dup_split {L : List Nat} (h : ¬ L.Nodup) :
    ∃ x A B C, L = A ++ x :: B ++ x :: C := by
  induction L with
  | nil => exact absurd List.nodup_nil h
  | cons a L ih =>
    by_cases ha : a ∈ L
    · obtain ⟨B, C, rfl⟩ := List.mem_iff_append.mp ha
      exact ⟨a, [], B, C, rfl⟩
    · have hnd : ¬ L.Nodup := fun hn => h (List.nodup_cons.mpr ⟨ha, hn⟩)
      obtain ⟨x, A, B, C, rfl⟩ := ih hnd
      exact ⟨x, a :: A, B, C, rfl⟩

lemma walkH_prefix (h : Heap α) {v u : Nat} {L : List Nat} (w : WalkH h v u L) :
    ∀ (P : List Nat) (x : Nat) (S : List Nat), L = P ++ x :: S → WalkH h v x (P ++ [x]) := by
  induction w with
  | nil v =>
    intro P x S hL
    cases P with
    | nil =>
      rw [List.nil_append] at hL
      injection hL with h1 h2
      subst h1
      exact WalkH.nil v
    | cons p P2 =>
      rw [List.cons_append] at hL
      injection hL with h1 h2
      cases P2 <;> simp at h2
  | @cons v w u L he hw ih =>
    intro P x S hL
    cases P with
    | nil =>
      rw [List.nil_append] at hL
      injection hL with h1 h2
      subst h1
      exact WalkH.nil v
    | cons p P2 =>
      rw [List.cons_append] at hL
      injection hL with h1 h2
      subst h1
      exact WalkH.cons he (ih P2 x S h2)

lemma dfsEdgesWith_true_iff (f : Nat → Bool) (es : List (Option Nat)) :
    dfsEdgesWith f es = true ↔ ∃ w, some w ∈ es ∧ f w = true := by
  induction es with
  | nil => simp [dfsEdgesWith]
  | cons e rest ih =>
    cases e with
    | none =>
      rw [dfsEdgesWith, ih]
      constructor
      · rintro ⟨w, hw, hf⟩
        exact ⟨w, List.mem_cons_of_mem _ hw, hf⟩
      · rintro ⟨w, hw, hf⟩
        rcases List.mem_cons.mp hw with hcon | hw
        · cases hcon
        · exact ⟨w, hw, hf⟩
    | some z =>
      rw [dfsEdgesWith, Bool.or_eq_true, ih]
      constructor
      · rintro (hz | ⟨w, hw, hf⟩)
        · exact ⟨z, List.mem_cons_self _ _, hz⟩
        · exact ⟨w, List.mem_cons_of_mem _ hw, hf⟩
      · rintro ⟨w, hw, hf⟩
        rcases List.mem_cons.mp hw with hcon | hw
        · cases hcon
          exact Or.inl hf
        · exact Or.inr ⟨w, hw, hf⟩

lemma card_erase_insert_le (X : Finset Nat) (v : Nat) :
    (X.erase v).card + 1 ≤ (insert v X).card := by
  by_cases hv : v ∈ X
  · rw [Finset.card_erase_of_mem hv, Finset.insert_eq_self.mpr hv]
    have h1 : 1 ≤ X.card := Finset.card_pos.mpr ⟨v, hv⟩
    omega
  · rw [Finset.erase_eq_of_not_mem hv, Finset.card_insert_of_not_mem hv]

lemma diff_card_step (L' stack : List Nat) (v : Nat) (hv : v ∉ stack) :
    (L'.toFinset \ (v :: stack).toFinset).card + 1
      ≤ ((v :: L').toFinset \ stack.toFinset).card := by
  rw [List.toFinset_cons, List.toFinset_cons, Finset.sdiff_insert,
    Finset.insert_sdiff_of_not_mem _ (by simpa using hv)]
  exact card_erase_insert_le _ _

lemma dfsC_reach_stack (h : Heap α) {L : List Nat} {v u : Nat} (w : WalkH h v u L) :
    ∀ (stack : List Nat) (fuel : Nat), u ∈ stack →
      (L.toFinset \ stack.toFinset).card + 1 ≤ fuel → dfsC h fuel stack v = true := by
  induction w with
  | nil v =>
    intro stack fuel hmem hfuel
    cases fuel with
    | zero => omega
    | succ f =>
      rw [dfsC, if_pos hmem]
  | @cons v w u L he hw ih =>
    intro stack fuel hmem hfuel
    cases fuel with
    | zero => omega
    | succ f =>
      by_cases hvs : v ∈ stack
      · rw [dfsC, if_pos hvs]
      · obtain ⟨nd, hnd, hsl⟩ := he
        rw [dfsC, if_neg hvs, hnd]
        rw [dfsEdgesWith_true_iff]
        refine ⟨w, hsl, ?_⟩
        apply ih (v :: stack) f (List.mem_cons_of_mem _ hmem)
        have hstep := diff_card_step L stack v hvs
        omega

lemma dfsC_dup (h : Heap α) {L : List Nat} {v u : Nat} (w : WalkH h v u L) :
    ∀ (stack : List Nat) (fuel : Nat), u ∈ L.dropLast →
      (L.toFinset \ stack.toFinset).card + 1 ≤ fuel → dfsC h fuel stack v = true := by
  induction w with
  | nil v =>
    intro stack fuel hmem _
    simp at hmem
  | @cons v w u L he hw ih =>
    intro stack fuel hmem hfuel
    cases fuel with
    | zero => omega
    | succ f =>
      by_cases hvs : v ∈ stack
      · rw [dfsC, if_pos hvs]
      · obtain ⟨nd, hnd, hsl⟩ := he
        rw [dfsC, if_neg hvs, hnd]
        rw [dfsEdgesWith_true_iff]
        refine ⟨w, hsl, ?_⟩
        have hstep := diff_card_step L stack v hvs
        rw [dropLast_cons_of_ne_nil (walkH_ne_nil hw)] at hmem
        rcases List.mem_cons.mp hmem with rfl | hmem
        · exact dfsC_reach_stack h hw (u :: stack) f (List.mem_cons_self _ _) (by omega)
        · exact ih (v :: stack) f hmem (by omega)

lemma dfsC_sound (h : Heap α) :
    ∀ (fuel : Nat) (stack : List Nat) (v : Nat), dfsC h fuel stack v = true →
      ∃ u L, WalkH h v u L ∧ (u ∈ stack ∨ u ∈ L.dropLast) := by
  intro fuel
  induction fuel with
  | zero =>
    intro stack v hd
    cases hd
  | succ f ih =>
    intro stack v hd
    by_cases hvs : v ∈ stack
    · exact ⟨v, [v], WalkH.nil v, Or.inl hvs⟩
    · rw [dfsC, if_neg hvs] at hd
      cases hv : h[v]? with
      | none =>
        rw [hv] at hd
        cases hd
      | some nd =>
        rw [hv] at hd
        rw [dfsEdgesWith_true_iff] at hd
        obtain ⟨w, hsl, hw⟩ := hd
        obtain ⟨u, L, hwalk, hcase⟩ := ih (v :: stack) w hw
        have he : EdgeH h v w := ⟨nd, hv, hsl⟩
        have hdl : (v :: L).dropLast = v :: L.dropLast :=
          dropLast_cons_of_ne_nil (walkH_ne_nil hwalk)
        rcases hcase with hmem | hdrop
        · rcases List.mem_cons.mp hmem with rfl | hmem
          · refine ⟨u, u :: L, WalkH.cons he hwalk, Or.inr ?_⟩
            rw [hdl]
            exact List.mem_cons_self _ _
          · exact ⟨u, v :: L, WalkH.cons he hwalk, Or.inl hmem⟩
        · refine ⟨u, v :: L, WalkH.cons he hwalk, Or.inr ?_⟩
          rw [hdl]
          exact List.mem_cons_of_mem _ hdrop

lemma hasLasso_dfsC (h : Heap α) {v : Nat} (hl : HasLasso h v) :
    dfsC h (h.length + 1) [] v = true := by
  obtain ⟨u, L, hw, hnd⟩ := hl
  obtain ⟨x, A, B, C, hsplit⟩ := exists_dup_split hnd
  have hassoc : A ++ x :: B ++ x :: C = (A ++ x :: B) ++ x :: C := by
    simp
  rw [hsplit, hassoc] at hw
  have hw2 : WalkH h v x ((A ++ x :: B) ++ [x]) := walkH_prefix h hw (A ++ x :: B) x C rfl
  have hxdrop : x ∈ ((A ++ x :: B) ++ [x]).dropLast := by
    rw [List.dropLast_concat]
    exact List.mem_append_right A (List.mem_cons_self _ _)
  have hvalid := walkH_nodes_lt h hw2 hxdrop
  apply dfsC_dup h hw2 [] (h.length + 1) hxdrop
  have hsub : ((A ++ x :: B) ++ [x]).toFinset ⊆ Finset.range h.length := by
    intro y hy
    rw [Finset.mem_range]
    exact hvalid y (List.mem_toFinset.mp hy)
  have hcard : ((A ++ x :: B) ++ [x]).toFinset.card ≤ h.length := by
    have hc := Finset.card_le_card hsub
    simpa using hc
  simp only [List.toFinset_nil, Finset.sdiff_empty]
  omega

lemma dfsC_hasLasso (h : Heap α) {v : Nat} (hd : dfsC h (h.length + 1) [] v = true) :
    HasLasso h v := by
  obtain ⟨u, L, hw, hcase⟩ := dfsC_sound h _ [] v hd
  rcases hcase with hmem | hdrop
  · simp at hmem
  · exact ⟨u, L, hw, not_nodup_of_mem_dropLast (walkH_getLast hw) hdrop⟩

/-- C1: the spec-modelled on-stack depth-first search `dgIsCyclic`
(`/* TODO */` in the source) reports cyclic exactly when some path of
edges starting at the node revisits a node already on that same path; in
particular it reports acyclic on the diamond-sharing scenario (two
non-cyclic paths converging on one node) and it terminates — evaluating
to `cyclic` — on the two-node cycle. -/
theorem c1_isCyclic_correct {α : Type} :
    (∀ (h : Heap α) (v : Nat), dgIsCyclicM h v = .cyclic ↔ HasLasso h v) ∧
    dgIsCyclicM diamondHeap 3 = .acyclic ∧
    dgIsCyclicM cycleHeap 0 = .cyclic := by
  refine ⟨?_, by decide, by decide⟩
  intro h v
  rw [dgIsCyclicM]
  constructor
  · intro hc
    apply dfsC_hasLasso h
    by_cases hd : dfsC h (h.length + 1) [] v = true
    · exact hd
    · rw [if_neg (by simpa using hd)] at hc
      cases hc
  · intro hl
    rw [if_pos (by simpa using hasLasso_dfsC h hl)]

/-! ### Structural copy of an acyclic graph -/

lemma mirrorsSlots_mono {R R2 : Nat → Nat → Prop} (hR : ∀ a b, R a b → R2 a b) :
    ∀ (s s2 : List (Option Nat)), mirrorsSlots R s s2 → mirrorsSlots R2 s s2 := by
  intro s
  induction s with
  | nil =>
    intro s2 hm
    cases s2 with
    | nil => exact hm
    | cons e r => exact hm.elim
  | cons e r ih =>
    intro s2 hm
    cases s2 with
    | nil => cases e <;> exact hm.elim
    | cons e2 r2 =>
      cases e with
      | none =>
        cases e2 with
        | none => exact ih r2 hm
        | some w2 => exact hm.elim
      | some w =>
        cases e2 with
        | none => exact hm.elim
        | some w2 => exact ⟨hR _ _ hm.1, ih r2 hm.2⟩

lemma mirrorsF_heap_mono (h0 e : Heap α) :
    ∀ (fuel : Nat) (H : Heap α) (v v2 : Nat), MirrorsF h0 H fuel v v2 →
      MirrorsF h0 (H ++ e) fuel v v2 := by
  intro fuel
  induction fuel with
  | zero =>
    intro H v v2 hm
    exact hm.elim
  | succ f ih =>
    intro H v v2 hm
    obtain ⟨nd, nd2, h1, h2, h3, h4, h5⟩ := hm
    refine ⟨nd, nd2, h1, ?_, h3, h4, ?_⟩
    · rcases List.getElem?_eq_some.mp h2 with ⟨hlt, _⟩
      rw [List.getElem?_append_left hlt]
      exact h2
    · exact mirrorsSlots_mono (fun a b => ih H a b) _ _ h5

lemma closedHeap_edge (h : Heap α) (hc : ClosedHeap h) {x y : Nat} (he : EdgeH h x y) :
    y < h.length := by
  obtain ⟨nd, hnd, hmem⟩ := he
  rw [ClosedHeap, List.all_eq_true] at hc
  have h1 := hc nd (List.getElem?_mem hnd)
  rw [List.all_eq_true] at h1
  have h2 := h1 (some y) hmem
  simpa using h2

lemma walkH_last_lt (h : Heap α) (hc : ClosedHeap h) {v u : Nat} {L : List Nat}
    (hv : v < h.length) (w : WalkH h v u L) : u < h.length := by
  induction w with
  | nil v2 => exact hv
  | @cons v2 w2 u2 L2 he hw ih => exact ih (closedHeap_edge h hc he)

lemma acyclic_walk_bound (h : Heap α) (v : Nat) (hc : ClosedHeap h) (hv : v < h.length)
    (hnl : ¬ HasLasso h v) : ∀ u L, WalkH h v u L → L.length ≤ h.length := by
  intro u L hw
  have hnd : L.Nodup := by
    by_contra hdup
    exact hnl ⟨u, L, hw, hdup⟩
  have hvalid : ∀ y ∈ L, y < h.length := by
    intro y hy
    have hne := walkH_ne_nil hw
    have hlast : L.getLast hne = u := by
      have hg := walkH_getLast hw
      rw [List.getLast?_eq_getLast L hne] at hg
      exact Option.some_injective _ hg
    have hL : L.dropLast ++ [u] = L := by
      rw [← hlast]
      exact List.dropLast_concat_getLast hne
    rw [← hL] at hy
    rcases List.mem_append.mp hy with hy | hy
    · exact walkH_dropLast_lt h hw y hy
    · rcases List.mem_singleton.mp hy with rfl
      exact walkH_last_lt h hc hv hw
  have hsub : L.toFinset ⊆ Finset.range h.length := by
    intro y hy
    rw [Finset.mem_range]
    exact hvalid y (List.mem_toFinset.mp hy)
  have hcard := Finset.card_le_card hsub
  rw [List.toFinset_card_of_nodup hnd] at hcard
  simpa using hcard

lemma copyEdgesWith_spec (h0 : Heap α) (f : Nat)
    (F : Heap α → Nat → Option (Heap α × Nat))
    (hF : ∀ (g : Heap α) (w : Nat), (∃ pre, g = h0 ++ pre) → w < h0.length →
      (∀ u L, WalkH h0 w u L → L.length ≤ f) →
      ∃ ext r, F g w = some (g ++ ext, r) ∧ g.length ≤ r ∧ MirrorsF h0 (g ++ ext) f w r) :
    ∀ (slots : List (Option Nat)) (g : Heap α), (∃ pre, g = h0 ++ pre) →
      (∀ w, some w ∈ slots → w < h0.length ∧ ∀ u L, WalkH h0 w u L → L.length ≤ f) →
      ∃ ext slots2, copyEdgesWith F g slots = some (g ++ ext, slots2) ∧
        mirrorsSlots (MirrorsF h0 (g ++ ext) f) slots slots2 := by
  intro slots
  induction slots with
  | nil =>
    intro g hpre hw
    refine ⟨[], [], ?_, trivial⟩
    simp [copyEdgesWith]
  | cons e rest ih =>
    intro g hpre hw
    cases e with
    | none =>
      obtain ⟨ext, rest2, hcall, hm⟩ :=
        ih g hpre (fun w hw2 => hw w (List.mem_cons_of_mem _ hw2))
      refine ⟨ext, none :: rest2, ?_, hm⟩
      rw [copyEdgesWith, hcall]
    | some w =>
      obtain ⟨hwlt, hwb⟩ := hw w (List.mem_cons_self _ _)
      obtain ⟨ext1, r, hF1, hgr, hm1⟩ := hF g w hpre hwlt hwb
      obtain ⟨pre, hgpre⟩ := hpre
      obtain ⟨ext2, rest2, hcall2, hm2⟩ :=
        ih (g ++ ext1) ⟨pre ++ ext1, by rw [hgpre, List.append_assoc]⟩
          (fun w2 hw2 => hw w2 (List.mem_cons_of_mem _ hw2))
      refine ⟨ext1 ++ ext2, some r :: rest2, ?_, ?_, ?_⟩
      · rw [copyEdgesWith]
        simp only [hF1, hcall2, List.append_assoc]
      · rw [← List.append_assoc]
        exact mirrorsF_heap_mono h0 ext2 f (g ++ ext1) w r hm1
      · rw [← List.append_assoc]
        exact hm2

lemma copyNodeM_spec (h0 : Heap α) (hc : ClosedHeap h0) :
    ∀ (fuel : Nat) (v : Nat) (g : Heap α), v < h0.length → (∃ pre, g = h0 ++ pre) →
      (∀ u L, WalkH h0 v u L → L.length ≤ fuel) →
      ∃ ext r, copyNodeM fuel g v = some (g ++ ext, r) ∧ g.length ≤ r ∧
        MirrorsF h0 (g ++ ext) fuel v r := by
  intro fuel
  induction fuel with
  | zero =>
    intro v g hv hpre hb
    have h1 := hb v [v] (WalkH.nil v)
    simp at h1
  | succ f ih =>
    intro v g hv hpre hb
    obtain ⟨nd, hnd⟩ : ∃ nd, h0[v]? = some nd := by
      cases hh : h0[v]? with
      | none =>
        rw [List.getElem?_eq_none_iff] at hh
        omega
      | some nd => exact ⟨nd, rfl⟩
    have hgv : g[v]? = some nd := by
      obtain ⟨pre, rfl⟩ := hpre
      rw [List.getElem?_append_left hv]
      exact hnd
    have hchild : ∀ w, some w ∈ containerSlots nd.links →
        w < h0.length ∧ ∀ u L, WalkH h0 w u L → L.length ≤ f := by
      intro w hmem
      have he : EdgeH h0 v w := ⟨nd, hnd, hmem⟩
      refine ⟨closedHeap_edge h0 hc he, ?_⟩
      intro u L hwalk
      have := hb u (v :: L) (WalkH.cons he hwalk)
      simp only [List.length_cons] at this
      omega
    obtain ⟨ext, slots2, hce, hms⟩ :=
      copyEdgesWith_spec h0 f (copyNodeM f)
        (fun g2 w hpre2 hwlt hwb => ih w g2 hwlt hpre2 hwb)
        (containerSlots nd.links) g hpre hchild
    refine ⟨ext ++ [⟨nd.payload, ⟨slots2.length, slots2.length, some slots2⟩⟩],
      (g ++ ext).length, ?_, ?_, ?_⟩
    · rw [copyNodeM]
      simp only [hgv, hce, List.append_assoc]
    · simp
    · refine ⟨nd, ⟨nd.payload, ⟨slots2.length, slots2.length, some slots2⟩⟩, hnd,
        ?_, ?_, rfl, ?_⟩
      · rw [← List.append_assoc]
        exact List.getElem?_concat_length _ _
      · obtain ⟨pre, rfl⟩ := hpre
        simp
      · have hred : containerSlots
            ((⟨nd.payload, ⟨slots2.length, slots2.length, some slots2⟩⟩ : dgNodeRec α).links)
            = slots2 := by
          simp [containerSlots]
        rw [hred, ← List.append_assoc]
        exact mirrorsSlots_mono
          (fun a b hm =>
            mirrorsF_heap_mono h0 [⟨nd.payload, ⟨slots2.length, slots2.length, some slots2⟩⟩]
              f (g ++ ext) a b hm) _ _ hms

/-- C2: on an acyclic input (precondition `dgIsCyclic = acyclic`, checked
by the spec-modelled cycle detection) the spec-modelled `dgCopy`
(`/* TODO */` in the source) succeeds and produces copies appended after
the untouched original arena: the returned root is a fresh record, and
`Mirrors` certifies that every copied node is a new record holding the
identical payload reference whose edge container has a slot `j` occupied
exactly when the corresponding original's slot `j` is, linking to the
copy of that original's target. -/
theorem c2_copy_correct {α : Type} (h : Heap α) (v : Nat)
    (hclosed : ClosedHeap h) (hv : v < h.length)
    (hacyc : dgIsCyclicM h v = .acyclic) :
    ∃ ext r, dgCopyM h v = some (h ++ ext, r) ∧ h.length ≤ r ∧ Mirrors h (h ++ ext) v r := by
  have hnl : ¬ HasLasso h v := by
    intro hl
    rw [dgIsCyclicM, if_pos (by simpa using hasLasso_dfsC h hl)] at hacyc
    cases hacyc
  have hb : ∀ u L, WalkH h v u L → L.length ≤ h.length + 1 := by
    intro u L hw
    have := acyclic_walk_bound h v hclosed hv hnl u L hw
    omega
  obtain ⟨ext, r, h1, h2, h3⟩ :=
    copyNodeM_spec h hclosed (h.length + 1) v h hv ⟨[], by simp⟩ hb
  exact ⟨ext, r, h1, h2, ⟨h.length + 1, h3⟩⟩

/-- C2 witness: copying the diamond from node `A`. -/
theorem c2_copy_correct_witness :
    (ClosedHeap diamondHeap ∧ 3 < diamondHeap.length ∧
      dgIsCyclicM diamondHeap 3 = .acyclic) ∧
    ∃ ext r, dgCopyM diamondHeap 3 = some (diamondHeap ++ ext, r) ∧
      diamondHeap.length ≤ r ∧ Mirrors diamondHeap (diamondHeap ++ ext) 3 r :=
  ⟨⟨by rw [ClosedHeap]; rfl, by decide, by decide⟩,
   c2_copy_correct diamondHeap 3 (by rw [ClosedHeap]; rfl) (by decide) (by decide)⟩

end CS101
